import Mathlib

set_option maxHeartbeats 1000000

/-!
Verification of the client-side product search engine of this repository
(`backend/static/frontend/js/app.js`): the Trie prefix index, the
Levenshtein fuzzy matcher, the relevance scorer `calculateScore`, and the
orchestrating `SearchEngine.buildIndex` / `SearchEngine.search`.

Modelling conventions (shallow embedding of the JavaScript source):
a JS string is a `List Char`; `String.prototype.toLowerCase` is modelled
on the ASCII range; the regex class `\s` is modelled by the ASCII
whitespace characters; a JS `Map` keyed by product identifier is an
association list in key insertion order; `Array.prototype.sort` (stable
per the ECMAScript specification) is modelled by insertion sort with the
comparison relation derived from the JS comparator.
-/

/-- Coerce a Lean string literal to the `List Char` model of JS strings. -/
def str (s : String) : List Char := s.data

/-- Model of the regex class `\s` (ASCII fragment). -/
def isWS (c : Char) : Bool := c = ' ' || c = '\t' || c = '\n' || c = '\r'

def notWS (c : Char) : Bool := !isWS c

/-- Model of `String.prototype.toLowerCase` on one character (ASCII). -/
def lowerChar (c : Char) : Char :=
  if 'A' ≤ c ∧ c ≤ 'Z' then Char.ofNat (c.toNat + 32) else c

/-- Model of `String.prototype.toLowerCase`. -/
def lowerStr (s : List Char) : List Char := s.map lowerChar

/-- Model of `s.split(/\s+/)` from the source.  The JS regex split keeps
the (possibly empty) pieces between separator matches: an input that
begins with whitespace contributes a leading empty piece, an input that
ends with whitespace contributes a trailing empty piece, and the empty
input yields the one-element array containing the empty string. -/
def splitWS : List Char → List (List Char)
  | [] => [[]]
  | c :: cs =>
    if isWS c then
      match cs with
      | [] => [[], []]
      | d :: _ => if isWS d then splitWS cs else [] :: splitWS cs
    else
      match splitWS cs with
      | [] => [[c]]
      | t :: ts => (c :: t) :: ts

/-- One step of `wsRuns`: begin or extend the leading run with the
non-whitespace character `c`, where `cs` is the rest of the string and
`rs` its runs. -/
def runsCons (c : Char) (cs : List Char) (rs : List (List Char)) : List (List Char) :=
  match cs, rs with
  | d :: _, t :: ts => if isWS d then [c] :: t :: ts else (c :: t) :: ts
  | _, _ => [[c]]

/-- The maximal runs of non-whitespace characters of a string, in order
(the tokenization the specification describes in its §4.1). -/
def wsRuns : List Char → List (List Char)
  | [] => []
  | c :: cs => if isWS c then wsRuns cs else runsCons c cs (wsRuns cs)

/-- Model of `String.prototype.trim` (ASCII whitespace fragment). -/
def trimWS (s : List Char) : List Char :=
  ((s.dropWhile isWS).reverse.dropWhile isWS).reverse

/-- Model of `Array.prototype.slice(0, stop)`: a negative `stop` counts
from the end of the array (it is not clamped to zero). -/
def jsSlice {α : Type} (l : List α) (stop : Int) : List α :=
  if stop < 0 then l.take (((l.length : Int) + stop).toNat) else l.take stop.toNat

/-- Model of `Math.min(...xs)` on a spread array: `none` models the empty
spread (whose JS result `Infinity` never passes a `≤ 2` test). -/
def listMin : List Nat → Option Nat
  | [] => none
  | x :: xs => some (xs.foldl Nat.min x)

/-- A product record as read by the search core: identifier, display
name, optional category text and optional stock-keeping code.  An absent
or empty category behaves identically in every use site of the source
(`product.category || ''` and the `if (product.category)` guard), so the
falsy values are collapsed into `none`. -/
structure Product where
  id : Nat
  name : List Char
  category : Option (List Char)
  sku : Option (List Char)
deriving DecidableEq

/-- The category text as produced by `product.category || ''`. -/
def Product.catText (p : Product) : List Char := p.category.getD []

/-- A TrieNode of the source: children object (insertion-ordered map from
a character to a node), end-of-word flag, and the product list of the
node's prefix. -/
inductive TrieNode where
  | mk : List (Char × TrieNode) → Bool → List Product → TrieNode

def TrieNode.children : TrieNode → List (Char × TrieNode)
  | .mk cs _ _ => cs

def TrieNode.isEndOfWord : TrieNode → Bool
  | .mk _ e _ => e

def TrieNode.products : TrieNode → List Product
  | .mk _ _ ps => ps

/-- A freshly constructed TrieNode. -/
def TrieNode.empty : TrieNode := .mk [] false []

/-- Lookup in the children object: `node.children[char]`. -/
def getChild : List (Char × TrieNode) → Char → Option TrieNode
  | [], _ => none
  | (k, v) :: rest, c => if k = c then some v else getChild rest c

/-- Update of the children object: assignment keeps the position of an
existing key and appends a new key. -/
def setChild : List (Char × TrieNode) → Char → TrieNode → List (Char × TrieNode)
  | [], c, t => [(c, t)]
  | (k, v) :: rest, c, t =>
    if k = c then (c, t) :: rest else (k, v) :: setChild rest c t

/-- The duplicate-guarded push of `Trie.insert`: the product is appended
unless a product with the same identifier is already in the list. -/
def addProduct (ps : List Product) (p : Product) : List Product :=
  if ps.any (fun q => q.id == p.id) then ps else ps ++ [p]

/-- The character loop of `Trie.insert`: walk (creating missing children)
one node per character, add the product to every node entered, and mark
the final node as end of word. -/
def insertAux : List Char → TrieNode → Product → TrieNode
  | [], node, _ => .mk node.children true node.products
  | c :: rest, node, prod =>
    let child0 := (getChild node.children c).getD TrieNode.empty
    let child1 := TrieNode.mk child0.children child0.isEndOfWord
      (addProduct child0.products prod)
    .mk (setChild node.children c (insertAux rest child1 prod))
      node.isEndOfWord node.products

/-- `Trie.insert(word, product)` from the source (the root is the trie). -/
def Trie.insert (root : TrieNode) (word : List Char) (product : Product) : TrieNode :=
  insertAux (lowerStr word) root product

/-- The character walk of `Trie.search`. -/
def searchAux : List Char → TrieNode → List Product
  | [], node => node.products
  | c :: rest, node =>
    match getChild node.children c with
    | none => []
    | some child => searchAux rest child

/-- `Trie.search(p)` from the source. -/
def Trie.search (root : TrieNode) (p : List Char) : List Product :=
  searchAux (lowerStr p) root

/-- Folding a sequence of `Trie.insert` calls over a starting trie. -/
def Trie.insertAll (root : TrieNode) (pairs : List (List Char × Product)) : TrieNode :=
  pairs.foldl (fun t wp => Trie.insert t wp.1 wp.2) root


/-! Trie lemmas towards claim C3. -/

@[simp] theorem TrieNode.children_mk (cs : List (Char × TrieNode)) (e : Bool)
    (ps : List Product) : (TrieNode.mk cs e ps).children = cs := rfl

@[simp] theorem TrieNode.isEndOfWord_mk (cs : List (Char × TrieNode)) (e : Bool)
    (ps : List Product) : (TrieNode.mk cs e ps).isEndOfWord = e := rfl

@[simp] theorem TrieNode.products_mk (cs : List (Char × TrieNode)) (e : Bool)
    (ps : List Product) : (TrieNode.mk cs e ps).products = ps := rfl

/-- The node obtained from `n` by the duplicate-guarded product push of
`Trie.insert`. -/
def bumpNode (n : TrieNode) (p : Product) : TrieNode :=
  TrieNode.mk n.children n.isEndOfWord (addProduct n.products p)

theorem insertAux_nil (node : TrieNode) (prod : Product) :
    insertAux [] node prod = TrieNode.mk node.children true node.products := rfl

theorem insertAux_cons (c : Char) (rest : List Char) (node : TrieNode) (prod : Product) :
    insertAux (c :: rest) node prod =
      TrieNode.mk
        (setChild node.children c
          (insertAux rest (bumpNode ((getChild node.children c).getD TrieNode.empty) prod) prod))
        node.isEndOfWord node.products := rfl

theorem searchAux_nil (node : TrieNode) : searchAux [] node = node.products := rfl

theorem searchAux_cons (c : Char) (rest : List Char) (node : TrieNode) :
    searchAux (c :: rest) node =
      match getChild node.children c with
      | none => []
      | some child => searchAux rest child := rfl

theorem searchAux_cons_none (c : Char) (rest : List Char) (node : TrieNode)
    (hg : getChild node.children c = none) : searchAux (c :: rest) node = [] := by
  rw [searchAux_cons, hg]

theorem searchAux_cons_some (c : Char) (rest : List Char) (node child : TrieNode)
    (hg : getChild node.children c = some child) :
    searchAux (c :: rest) node = searchAux rest child := by
  rw [searchAux_cons, hg]

theorem getChild_setChild_self (cs : List (Char × TrieNode)) (c : Char) (t : TrieNode) :
    getChild (setChild cs c t) c = some t := by
  induction cs with
  | nil => simp [setChild, getChild]
  | cons kv rest ih =>
    obtain ⟨k, v⟩ := kv
    by_cases h : k = c
    · simp [setChild, getChild, h]
    · simp [setChild, getChild, h, ih]

theorem getChild_setChild_ne (cs : List (Char × TrieNode)) (c c' : Char) (t : TrieNode)
    (h : c' ≠ c) : getChild (setChild cs c t) c' = getChild cs c' := by
  have hcc : ¬(c = c') := fun hh => h hh.symm
  induction cs with
  | nil =>
    simp only [setChild, getChild]
    rw [if_neg hcc]
  | cons kv rest ih =>
    obtain ⟨k, v⟩ := kv
    by_cases hk : k = c
    · subst hk
      simp only [setChild, if_pos rfl, getChild, if_neg hcc]
    · by_cases hk' : k = c'
      · subst hk'
        simp [setChild, getChild, hk]
      · simp [setChild, getChild, hk, hk', ih]

theorem addProduct_exists (ps : List Product) (p : Product) :
    ∃ r ∈ addProduct ps p, r.id = p.id := by
  unfold addProduct
  split
  · rename_i h
    rw [List.any_eq_true] at h
    obtain ⟨r, hr, hid⟩ := h
    exact ⟨r, hr, by simpa using hid⟩
  · exact ⟨p, by simp, rfl⟩

theorem addProduct_superset (ps : List Product) (p x : Product) (hx : x ∈ ps) :
    x ∈ addProduct ps p := by
  unfold addProduct
  split
  · exact hx
  · simp [hx]

theorem addProduct_cases (ps : List Product) (p x : Product) (hx : x ∈ addProduct ps p) :
    x ∈ ps ∨ x = p := by
  unfold addProduct at hx
  split at hx
  · exact Or.inl hx
  · rcases List.mem_append.mp hx with h | h
    · exact Or.inl h
    · simp at h
      exact Or.inr h

theorem insertAux_products (w : List Char) (n : TrieNode) (p : Product) :
    (insertAux w n p).products = n.products := by
  cases w with
  | nil => rw [insertAux_nil, TrieNode.products_mk]
  | cons c rest => rw [insertAux_cons, TrieNode.products_mk]

theorem searchAux_bump (q : List Char) (n : TrieNode) (p x : Product)
    (hx : x ∈ searchAux q n) : x ∈ searchAux q (bumpNode n p) := by
  cases q with
  | nil =>
    rw [searchAux_nil] at hx ⊢
    rw [bumpNode, TrieNode.products_mk]
    exact addProduct_superset _ _ _ hx
  | cons c rest =>
    rw [searchAux_cons] at hx ⊢
    rwa [bumpNode, TrieNode.children_mk]

theorem insertAux_mem (q : List Char) : ∀ (w : List Char) (n : TrieNode) (p : Product),
    q ≠ [] → q <+: w → ∃ r ∈ searchAux q (insertAux w n p), r.id = p.id := by
  induction q with
  | nil => intro w n p hq _; exact absurd rfl hq
  | cons c q' ih =>
    intro w n p _ hpre
    obtain ⟨tail, htail⟩ := hpre
    cases w with
    | nil => exact absurd htail (by simp)
    | cons d w' =>
      have hcd : d = c := by
        have := congrArg (fun l => l.headD c) htail
        simpa using this.symm
      subst hcd
      have hpre' : q' <+: w' := ⟨tail, by simpa using htail⟩
      rw [insertAux_cons,
        searchAux_cons_some d q' _ _
          (by rw [TrieNode.children_mk]; exact getChild_setChild_self _ _ _)]
      by_cases hq' : q' = []
      · subst hq'
        rw [searchAux_nil, insertAux_products, bumpNode, TrieNode.products_mk]
        exact addProduct_exists _ _
      · exact ih w' _ p hq' hpre'

theorem insertAux_preserves (q : List Char) : ∀ (w : List Char) (n : TrieNode) (p x : Product),
    x ∈ searchAux q n → x ∈ searchAux q (insertAux w n p) := by
  induction q with
  | nil =>
    intro w n p x hx
    rw [searchAux_nil] at hx ⊢
    rwa [insertAux_products]
  | cons c q' ih =>
    intro w n p x hx
    cases w with
    | nil =>
      rw [insertAux_nil, searchAux_cons, TrieNode.children_mk, ← searchAux_cons]
      exact hx
    | cons d w' =>
      by_cases hcd : c = d
      · subst hcd
        cases hg : getChild n.children c with
        | none =>
          rw [searchAux_cons_none c q' n hg] at hx
          exact absurd hx (by simp)
        | some child =>
          rw [searchAux_cons_some c q' n child hg] at hx
          rw [insertAux_cons,
            searchAux_cons_some c q' _ _
              (by rw [TrieNode.children_mk]; exact getChild_setChild_self _ _ _)]
          have hx1 : x ∈ searchAux q' (bumpNode child p) := searchAux_bump q' child p x hx
          rw [hg, Option.getD_some]
          exact ih w' (bumpNode child p) p x hx1
      · rw [insertAux_cons, searchAux_cons, TrieNode.children_mk,
          getChild_setChild_ne _ _ _ _ hcd, ← searchAux_cons]
        exact hx

theorem insertAux_from (q : List Char) : ∀ (w : List Char) (n : TrieNode) (p x : Product),
    x ∈ searchAux q (insertAux w n p) → x ∈ searchAux q n ∨ x = p := by
  induction q with
  | nil =>
    intro w n p x hx
    rw [searchAux_nil, insertAux_products] at hx
    rw [searchAux_nil]
    exact Or.inl hx
  | cons c q' ih =>
    intro w n p x hx
    cases w with
    | nil =>
      rw [insertAux_nil, searchAux_cons, TrieNode.children_mk, ← searchAux_cons] at hx
      exact Or.inl hx
    | cons d w' =>
      by_cases hcd : c = d
      · subst hcd
        rw [insertAux_cons,
          searchAux_cons_some c q' _ _
            (by rw [TrieNode.children_mk]; exact getChild_setChild_self _ _ _)] at hx
        rcases ih w' _ p x hx with hx1 | hx1
        · cases hg : getChild n.children c with
          | none =>
            rw [hg, Option.getD_none] at hx1
            cases q' with
            | nil =>
              rw [searchAux_nil, bumpNode, TrieNode.products_mk] at hx1
              rcases addProduct_cases _ _ _ hx1 with h | h
              · rw [TrieNode.empty, TrieNode.products_mk] at h
                exact absurd h (by simp)
              · exact Or.inr h
            | cons e q'' =>
              rw [searchAux_cons_none e q'' (bumpNode TrieNode.empty p) rfl] at hx1
              exact absurd hx1 (by simp)
          | some child =>
            rw [hg, Option.getD_some] at hx1
            cases q' with
            | nil =>
              rw [searchAux_nil, bumpNode, TrieNode.products_mk] at hx1
              rcases addProduct_cases _ _ _ hx1 with h | h
              · rw [searchAux_cons_some c [] n child hg, searchAux_nil]
                exact Or.inl h
              · exact Or.inr h
            | cons e q'' =>
              rw [searchAux_cons, bumpNode, TrieNode.children_mk, ← searchAux_cons] at hx1
              rw [searchAux_cons_some c (e :: q'') n child hg]
              exact Or.inl hx1
        · exact Or.inr hx1
      · rw [insertAux_cons, searchAux_cons, TrieNode.children_mk,
          getChild_setChild_ne _ _ _ _ hcd, ← searchAux_cons] at hx
        exact Or.inl hx

theorem insertAll_preserves (pairs : List (List Char × Product)) :
    ∀ (t : TrieNode) (q : List Char) (x : Product),
    x ∈ searchAux q t → x ∈ searchAux q (Trie.insertAll t pairs) := by
  induction pairs with
  | nil => intro t q x hx; simpa [Trie.insertAll] using hx
  | cons wp rest ih =>
    intro t q x hx
    simp only [Trie.insertAll, List.foldl_cons] at ih ⊢
    exact ih _ q x (insertAux_preserves q _ t wp.2 x hx)

theorem insertAll_from (pairs : List (List Char × Product)) :
    ∀ (t : TrieNode) (q : List Char) (x : Product),
    x ∈ searchAux q (Trie.insertAll t pairs) →
      x ∈ searchAux q t ∨ ∃ wp ∈ pairs, x = wp.2 := by
  induction pairs with
  | nil =>
    intro t q x hx
    exact Or.inl (by simpa [Trie.insertAll] using hx)
  | cons wp rest ih =>
    intro t q x hx
    simp only [Trie.insertAll, List.foldl_cons] at hx
    rcases ih _ q x hx with h | h
    · rcases insertAux_from q _ t wp.2 x h with h2 | h2
      · exact Or.inl h2
      · exact Or.inr ⟨wp, List.mem_cons_self wp rest, h2⟩
    · obtain ⟨wp2, hwp2, hx2⟩ := h
      exact Or.inr ⟨wp2, List.mem_cons_of_mem wp hwp2, hx2⟩

theorem searchAux_emptyNode (q : List Char) : searchAux q TrieNode.empty = [] := by
  cases q with
  | nil => rw [searchAux_nil, TrieNode.empty, TrieNode.products_mk]
  | cons c rest =>
    rw [searchAux_cons, TrieNode.empty, TrieNode.children_mk]
    simp only [getChild]

/-- C3: for every sequence of `Trie.insert(word, product)` calls whose
product identifiers determine the product records (the data model gives
every product a unique, stable identifier), and for every non-empty `p`
that is, after lowercasing, a prefix of an inserted word, `Trie.search p`
includes that product: `insert` adds the product to the collection of
every node along the word's character path, skipping the add when a
product with the same identifier is already present at that node. -/
theorem C3_insert_search_path (pairs : List (List Char × Product))
    (w : List Char) (prod : Product) (hmem : (w, prod) ∈ pairs)
    (hinj : ∀ wp1 ∈ pairs, ∀ wp2 ∈ pairs, wp1.2.id = wp2.2.id → wp1.2 = wp2.2)
    (p : List Char) (hp : p ≠ []) (hpre : lowerStr p <+: lowerStr w) :
    prod ∈ Trie.search (Trie.insertAll TrieNode.empty pairs) p := by
  obtain ⟨l1, l2, hpairs⟩ := List.append_of_mem hmem
  have hq : lowerStr p ≠ [] := by simpa [lowerStr] using hp
  have hsplit : Trie.insertAll TrieNode.empty pairs
      = Trie.insertAll (Trie.insert (Trie.insertAll TrieNode.empty l1) w prod) l2 := by
    rw [hpairs]
    simp [Trie.insertAll, List.foldl_append]
  obtain ⟨r, hr, hid⟩ :=
    insertAux_mem (lowerStr p) (lowerStr w) (Trie.insertAll TrieNode.empty l1) prod hq hpre
  have hr2 : r ∈ searchAux (lowerStr p) (Trie.insertAll TrieNode.empty pairs) := by
    rw [hsplit]
    exact insertAll_preserves l2 _ _ r hr
  have hfrom := insertAll_from pairs TrieNode.empty (lowerStr p) r hr2
  rw [searchAux_emptyNode] at hfrom
  rcases hfrom with h | h
  · exact absurd h (by simp)
  · obtain ⟨wp, hwp, hreq⟩ := h
    have heq : wp.2 = prod := hinj wp hwp (w, prod) hmem (by rw [← hreq]; exact hid)
    rw [Trie.search]
    rw [hreq, heq] at hr2
    exact hr2

/-- Witness for C3 at a concrete insert sequence: after inserting the name
field of a product under the word `"Ab"`, searching the one-character
query `"A"` returns that product. -/
theorem C3_witness :
    (Product.mk 1 (str "Ab") none none) ∈
      Trie.search
        (Trie.insertAll TrieNode.empty [(str "Ab", Product.mk 1 (str "Ab") none none)])
        (str "A") :=
  C3_insert_search_path [(str "Ab", Product.mk 1 (str "Ab") none none)]
    (str "Ab") (Product.mk 1 (str "Ab") none none)
    (by decide) (by decide) (str "A") (by decide) (by decide)

/-! The Levenshtein machinery: the two-row dynamic program of
`SearchEngine.levenshteinDistance` and the textbook recurrence. -/

/-- The textbook recurrence for the Levenshtein distance. -/
def levRec : List Char → List Char → Nat
  | [], ys => ys.length
  | x :: xs, [] => (x :: xs).length
  | x :: xs, y :: ys =>
    if x = y then levRec xs ys
    else 1 + min (levRec xs ys) (min (levRec (x :: xs) ys) (levRec xs (y :: ys)))
termination_by a b => a.length + b.length
decreasing_by all_goals (simp only [List.length_cons]; omega)

/-- The inner loop of `levenshteinDistance`: one row update, walking the
second string together with the previous row, carrying `curr[j-1]`. -/
def dpInner (x : Char) : List Char → List Nat → Nat → List Nat
  | [], _, _ => []
  | y :: ys, prev, cPrev =>
    match prev with
    | [] => []
    | p :: prest =>
      let v := if x = y then p else 1 + min p (min (prest.headD 0) cPrev)
      v :: dpInner x ys prest v

/-- The outer loop of `levenshteinDistance`: one iteration per character
of the first string; the produced row becomes the next `prev` exactly as
the source swaps its two arrays. -/
def dpLoop (s2 : List Char) : List Char → Nat → List Nat → List Nat
  | [], _, prev => prev
  | x :: xs, i, prev => dpLoop s2 xs (i + 1) (i :: dpInner x s2 prev i)

/-- `SearchEngine.levenshteinDistance` of the source: rows initialized to
`0..n`, one row per character of `str1`, result `prev[n]`. -/
def levenshteinDistance (str1 str2 : List Char) : Nat :=
  (dpLoop str2 str1 1 (List.range (str2.length + 1))).getD str2.length 0

/-- Reference row: entry `j` of the row for the (reversed) consumed part
`A` of the first string holds the recurrence distance of `A` against the
reversed slice `u0 ++ take j ys` of the second string. -/
def rowFrom (A : List Char) : List Char → List Char → List Nat
  | u0, [] => [levRec A u0.reverse]
  | u0, y :: ys => levRec A u0.reverse :: rowFrom A (u0 ++ [y]) ys

theorem rowFrom_headD (A u0 ys : List Char) :
    (rowFrom A u0 ys).headD 0 = levRec A u0.reverse := by
  cases ys <;> rfl

theorem rowFrom_eq_cons (A u0 ys : List Char) :
    rowFrom A u0 ys = levRec A u0.reverse :: (rowFrom A u0 ys).tail := by
  cases ys <;> rfl

theorem levRec_nil_right (A : List Char) : levRec A [] = A.length := by
  cases A <;> rw [levRec]

theorem levRec_snoc_step (x y : Char) (A u0 : List Char) :
    (if x = y then levRec A u0.reverse
     else 1 + min (levRec A u0.reverse)
       (min (levRec A (u0 ++ [y]).reverse) (levRec (x :: A) u0.reverse))) =
    levRec (x :: A) (u0 ++ [y]).reverse := by
  have hrev : (u0 ++ [y]).reverse = y :: u0.reverse := by
    rw [List.reverse_append]
    rfl
  rw [hrev]
  rw [levRec]
  split
  · rfl
  · have h1 := Nat.min_comm (levRec (x :: A) u0.reverse) (levRec A (y :: u0.reverse))
    omega

theorem dpInner_spec (x : Char) (ys : List Char) : ∀ (u0 A : List Char),
    dpInner x ys (rowFrom A u0 ys) (levRec (x :: A) u0.reverse) =
      (rowFrom (x :: A) u0 ys).tail := by
  induction ys with
  | nil => intro u0 A; rfl
  | cons y ys ih =>
    intro u0 A
    rw [rowFrom, dpInner]
    simp only [rowFrom_headD]
    rw [levRec_snoc_step]
    rw [ih (u0 ++ [y]) A]
    rw [rowFrom_eq_cons (x :: A) u0 (y :: ys)]
    simp only [List.tail_cons]
    exact (rowFrom_eq_cons (x :: A) (u0 ++ [y]) ys).symm

theorem dpLoop_spec (s2 : List Char) : ∀ (xs A : List Char),
    dpLoop s2 xs (A.length + 1) (rowFrom A [] s2) = rowFrom (xs.reverse ++ A) [] s2 := by
  intro xs
  induction xs with
  | nil => intro A; simp [dpLoop]
  | cons x xs ih =>
    intro A
    rw [dpLoop]
    have hinner : dpInner x s2 (rowFrom A [] s2) (A.length + 1)
        = (rowFrom (x :: A) [] s2).tail := by
      have h0 : levRec (x :: A) ([] : List Char).reverse = A.length + 1 := by
        rw [List.reverse_nil, levRec_nil_right, List.length_cons]
      rw [← h0]
      exact dpInner_spec x s2 [] A
    rw [hinner]
    have hrow : rowFrom (x :: A) [] s2 = (A.length + 1) :: (rowFrom (x :: A) [] s2).tail := by
      have h0 : levRec (x :: A) ([] : List Char).reverse = A.length + 1 := by
        rw [List.reverse_nil, levRec_nil_right, List.length_cons]
      rw [← h0]
      exact rowFrom_eq_cons (x :: A) [] s2
    rw [← hrow]
    have hih := ih (x :: A)
    rw [List.length_cons] at hih
    rw [hih]
    have : xs.reverse ++ (x :: A) = (x :: xs).reverse ++ A := by
      rw [List.reverse_cons, List.append_assoc]
      rfl
    rw [this]

theorem rowFrom_init (ys : List Char) : ∀ (u0 : List Char),
    rowFrom ([] : List Char) u0 ys = List.range' u0.length (ys.length + 1) := by
  induction ys with
  | nil =>
    intro u0
    rw [rowFrom, levRec, List.length_reverse]
    rfl
  | cons y ys ih =>
    intro u0
    rw [rowFrom, levRec, List.length_reverse, List.length_cons, List.range'_succ]
    rw [ih (u0 ++ [y])]
    rw [List.length_append, List.length_cons, List.length_nil]

theorem rowFrom_getD_last (ys : List Char) : ∀ (u0 A : List Char),
    (rowFrom A u0 ys).getD ys.length 0 = levRec A (u0 ++ ys).reverse := by
  induction ys with
  | nil =>
    intro u0 A
    rw [rowFrom, List.length_nil, List.append_nil]
    rfl
  | cons y ys ih =>
    intro u0 A
    rw [rowFrom, List.length_cons, List.getD_cons_succ]
    rw [ih (u0 ++ [y]) A, List.append_assoc]
    rfl

theorem levenshteinDistance_eq_rev (s1 s2 : List Char) :
    levenshteinDistance s1 s2 = levRec s1.reverse s2.reverse := by
  rw [levenshteinDistance, List.range_eq_range']
  have hinit : List.range' 0 (s2.length + 1) = rowFrom ([] : List Char) [] s2 := by
    rw [rowFrom_init s2 []]
    rfl
  rw [hinit]
  have hloop := dpLoop_spec s2 s1 []
  rw [List.length_nil] at hloop
  rw [hloop, List.append_nil]
  have := rowFrom_getD_last s2 [] s1.reverse
  rw [List.nil_append] at this
  exact this

/-- An edit alignment between two strings: `Edits a b n` holds when `a`
can be transformed into `b` by an alignment of cost `n`, where copying a
character is free and substituting, inserting or deleting one character
costs one.  The Levenshtein distance of the glossary is the least such
`n`. -/
inductive Edits : List Char → List Char → Nat → Prop where
  | nil : Edits [] [] 0
  | copy (c : Char) {xs ys : List Char} {n : Nat} :
      Edits xs ys n → Edits (c :: xs) (c :: ys) n
  | subst (a b : Char) {xs ys : List Char} {n : Nat} :
      Edits xs ys n → Edits (a :: xs) (b :: ys) (n + 1)
  | ins (b : Char) {xs ys : List Char} {n : Nat} :
      Edits xs ys n → Edits xs (b :: ys) (n + 1)
  | del (a : Char) {xs ys : List Char} {n : Nat} :
      Edits xs ys n → Edits (a :: xs) ys (n + 1)

theorem edits_nil_left (b : List Char) : Edits [] b b.length := by
  induction b with
  | nil => exact Edits.nil
  | cons y ys ih => exact Edits.ins y ih

theorem edits_nil_right (a : List Char) : Edits a [] a.length := by
  induction a with
  | nil => exact Edits.nil
  | cons x xs ih => exact Edits.del x ih

theorem edits_achieve : ∀ (a b : List Char), Edits a b (levRec a b)
  | [], b => by rw [levRec]; exact edits_nil_left b
  | x :: xs, [] => by rw [levRec]; exact edits_nil_right (x :: xs)
  | x :: xs, y :: ys => by
    rw [levRec]
    by_cases hxy : x = y
    · rw [if_pos hxy]
      subst hxy
      exact Edits.copy x (edits_achieve xs ys)
    · rw [if_neg hxy]
      rcases min_cases (levRec xs ys)
          (min (levRec (x :: xs) ys) (levRec xs (y :: ys))) with ⟨hm, _⟩ | ⟨hm, _⟩
      · rw [hm, Nat.add_comm]
        exact Edits.subst x y (edits_achieve xs ys)
      · rcases min_cases (levRec (x :: xs) ys) (levRec xs (y :: ys)) with
          ⟨hm2, _⟩ | ⟨hm2, _⟩
        · rw [hm, hm2, Nat.add_comm]
          exact Edits.ins y (edits_achieve (x :: xs) ys)
        · rw [hm, hm2, Nat.add_comm]
          exact Edits.del x (edits_achieve xs (y :: ys))
termination_by a b => a.length + b.length
decreasing_by all_goals (simp only [List.length_cons]; omega)

theorem levRec_adj : ∀ (N : Nat) (xs ys : List Char), xs.length + ys.length ≤ N →
    (∀ b, levRec xs (b :: ys) ≤ 1 + levRec xs ys) ∧
    (∀ a, levRec (a :: xs) ys ≤ 1 + levRec xs ys) ∧
    (∀ b, levRec xs ys ≤ 1 + levRec xs (b :: ys)) ∧
    (∀ a, levRec xs ys ≤ 1 + levRec (a :: xs) ys) := by
  intro N
  induction N with
  | zero =>
    intro xs ys hlen
    have hx : xs = [] := List.length_eq_zero.mp (by omega)
    have hy : ys = [] := List.length_eq_zero.mp (by omega)
    subst hx; subst hy
    refine ⟨fun b => ?_, fun a => ?_, fun b => ?_, fun a => ?_⟩ <;> simp [levRec]
  | succ N ih =>
    intro xs ys hlen
    refine ⟨fun b => ?_, fun a => ?_, fun b => ?_, fun a => ?_⟩
    · cases xs with
      | nil =>
        simp [levRec]
        omega
      | cons x xs' =>
        by_cases hxb : x = b
        · rw [levRec, if_pos hxb]
          exact (ih xs' ys (by simp at hlen; omega)).2.2.2 x
        · rw [levRec, if_neg hxb]
          omega
    · cases ys with
      | nil =>
        rw [levRec, levRec_nil_right, List.length_cons]
        omega
      | cons y ys' =>
        by_cases hay : a = y
        · rw [levRec, if_pos hay]
          exact (ih xs ys' (by simp at hlen; omega)).2.2.1 y
        · rw [levRec, if_neg hay]
          omega
    · cases xs with
      | nil =>
        simp only [levRec, List.length_cons]
        omega
      | cons x xs' =>
        have h2 := (ih xs' ys (by simp at hlen; omega)).2.1 x
        by_cases hxb : x = b
        · conv_rhs => rw [levRec, if_pos hxb]
          omega
        · conv_rhs => rw [levRec, if_neg hxb]
          have h3 := (ih xs' ys (by simp at hlen; omega)).2.2.1 b
          omega
    · cases ys with
      | nil =>
        rw [levRec_nil_right]
        conv_rhs => rw [levRec]
        rw [List.length_cons]
        omega
      | cons y ys' =>
        have h1 := (ih xs ys' (by simp at hlen; omega)).1 y
        by_cases hay : a = y
        · conv_rhs => rw [levRec, if_pos hay]
          omega
        · conv_rhs => rw [levRec, if_neg hay]
          have h4 := (ih xs ys' (by simp at hlen; omega)).2.2.2 a
          omega

theorem levRec_le_cons_right (xs ys : List Char) (b : Char) :
    levRec xs (b :: ys) ≤ 1 + levRec xs ys :=
  (levRec_adj (xs.length + ys.length) xs ys le_rfl).1 b

theorem levRec_le_cons_left (xs ys : List Char) (a : Char) :
    levRec (a :: xs) ys ≤ 1 + levRec xs ys :=
  (levRec_adj (xs.length + ys.length) xs ys le_rfl).2.1 a

theorem edits_lower : ∀ {a b : List Char} {n : Nat}, Edits a b n → levRec a b ≤ n := by
  intro a b n h
  induction h with
  | nil => rw [levRec]; rfl
  | copy c h ih =>
    rw [levRec, if_pos rfl]
    exact ih
  | subst x y h ih =>
    by_cases hxy : x = y
    · rw [levRec, if_pos hxy]
      omega
    · rw [levRec, if_neg hxy]
      omega
  | ins b h ih =>
    rename_i xs ys m
    have hh := levRec_le_cons_right xs ys b
    omega
  | del a h ih =>
    rename_i xs ys m
    have hh := levRec_le_cons_left xs ys a
    omega

theorem edits_copy_snoc {xs ys : List Char} {n : Nat} (h : Edits xs ys n) (c : Char) :
    Edits (xs ++ [c]) (ys ++ [c]) n := by
  induction h with
  | nil => exact Edits.copy c Edits.nil
  | copy d h ih => exact Edits.copy d ih
  | subst u v h ih => exact Edits.subst u v ih
  | ins v h ih => exact Edits.ins v ih
  | del u h ih => exact Edits.del u ih

theorem edits_subst_snoc {xs ys : List Char} {n : Nat} (h : Edits xs ys n) (a b : Char) :
    Edits (xs ++ [a]) (ys ++ [b]) (n + 1) := by
  induction h with
  | nil => exact Edits.subst a b Edits.nil
  | copy d h ih => exact Edits.copy d ih
  | subst u v h ih => exact Edits.subst u v ih
  | ins v h ih => exact Edits.ins v ih
  | del u h ih => exact Edits.del u ih

theorem edits_ins_snoc {xs ys : List Char} {n : Nat} (h : Edits xs ys n) (b : Char) :
    Edits xs (ys ++ [b]) (n + 1) := by
  induction h with
  | nil => exact Edits.ins b Edits.nil
  | copy d h ih => exact Edits.copy d ih
  | subst u v h ih => exact Edits.subst u v ih
  | ins v h ih => exact Edits.ins v ih
  | del u h ih => exact Edits.del u ih

theorem edits_del_snoc {xs ys : List Char} {n : Nat} (h : Edits xs ys n) (a : Char) :
    Edits (xs ++ [a]) ys (n + 1) := by
  induction h with
  | nil => exact Edits.del a Edits.nil
  | copy d h ih => exact Edits.copy d ih
  | subst u v h ih => exact Edits.subst u v ih
  | ins v h ih => exact Edits.ins v ih
  | del u h ih => exact Edits.del u ih

theorem edits_reverse {xs ys : List Char} {n : Nat} (h : Edits xs ys n) :
    Edits xs.reverse ys.reverse n := by
  induction h with
  | nil => exact Edits.nil
  | copy c h ih =>
    rw [List.reverse_cons, List.reverse_cons]
    exact edits_copy_snoc ih c
  | subst a b h ih =>
    rw [List.reverse_cons, List.reverse_cons]
    exact edits_subst_snoc ih a b
  | ins b h ih =>
    rw [List.reverse_cons]
    exact edits_ins_snoc ih b
  | del a h ih =>
    rw [List.reverse_cons]
    exact edits_del_snoc ih a

theorem levRec_reverse (a b : List Char) : levRec a.reverse b.reverse = levRec a b := by
  apply Nat.le_antisymm
  · exact edits_lower (edits_reverse (edits_achieve a b))
  · have h := edits_reverse (edits_achieve a.reverse b.reverse)
    rw [List.reverse_reverse, List.reverse_reverse] at h
    exact edits_lower h

/-- The dynamic program of the source computes the textbook recurrence. -/
theorem levenshteinDistance_eq (a b : List Char) :
    levenshteinDistance a b = levRec a b := by
  rw [levenshteinDistance_eq_rev, levRec_reverse]

/-- C4: `levenshteinDistance(a, b)` equals the Levenshtein edit distance,
characterized as the least cost of an edit alignment (single-character
insertions, deletions, substitutions): the computed value is achieved by
some alignment and bounds every alignment from below; the listed edge and
example values hold. -/
theorem C4_levenshtein_correct (a b : List Char) :
    Edits a b (levenshteinDistance a b) ∧
    (∀ n, Edits a b n → levenshteinDistance a b ≤ n) ∧
    (∀ x : List Char, levenshteinDistance x [] = x.length) ∧
    levenshteinDistance (str "kitten") (str "sitting") = 3 ∧
    levenshteinDistance [] (str "abc") = 3 ∧
    levenshteinDistance (str "abc") (str "abc") = 0 := by
  refine ⟨?_, ?_, ?_, ?_, ?_, ?_⟩
  · rw [levenshteinDistance_eq]
    exact edits_achieve a b
  · intro n h
    rw [levenshteinDistance_eq]
    exact edits_lower h
  · intro x
    rw [levenshteinDistance_eq, levRec_nil_right]
  · decide
  · decide
  · decide

/-- Witness for C4: the edit-alignment bound applied at the concrete pair
`("a", "b")` with the explicit one-substitution alignment. -/
theorem C4_witness : levenshteinDistance (str "a") (str "b") ≤ 1 :=
  (C4_levenshtein_correct (str "a") (str "b")).2.1 1 (Edits.subst 'a' 'b' Edits.nil)

/-! The relevance scorer `SearchEngine.calculateScore`. -/

/-- The stock-keeping code text as produced by `product.sku || ''`. -/
def Product.skuText (p : Product) : List Char := p.sku.getD []

/-- `SearchEngine.calculateScore(product, query)` of the source, with the
accumulator updates of the JS statement sequence written as a let chain. -/
def calculateScore (product : Product) (query : List Char) : Nat :=
  let lowerQuery := lowerStr query
  let lowerName := lowerStr product.name
  let lowerCategory := lowerStr product.catText
  let score : Nat := 0
  let score := score + (if lowerName = lowerQuery then 100 else 0)
  let score := score + (if lowerQuery <+: lowerName then 50 else 0)
  let score := score + (if lowerQuery <:+: lowerName then 30 else 0)
  let queryWords := splitWS lowerQuery
  let nameWords := splitWS lowerName
  let score := queryWords.foldl (fun s qWord =>
    nameWords.foldl (fun s2 nWord =>
      if nWord = qWord then s2 + 20
      else if qWord <+: nWord then s2 + 10
      else s2) s) score
  let score := score + (if lowerQuery <:+: lowerCategory then 15 else 0)
  let minDistance := listMin (nameWords.map (fun w => levenshteinDistance lowerQuery w))
  score + (match minDistance with
    | some d => if d ≤ 2 then (3 - d) * 5 else 0
    | none => 0)

/-- The score as claim C1 words it: the plain additive sum of the six
listed contributions over the lowercased name, query and category, with
the fuzzy bonus phrased through the textbook Levenshtein recurrence. -/
def specScore (product : Product) (query : List Char) : Nat :=
  (if lowerStr product.name = lowerStr query then 100 else 0)
  + (if lowerStr query <+: lowerStr product.name then 50 else 0)
  + (if lowerStr query <:+: lowerStr product.name then 30 else 0)
  + ((splitWS (lowerStr query)).map (fun qw =>
      ((splitWS (lowerStr product.name)).map (fun nw =>
        if nw = qw then 20 else if qw <+: nw then 10 else 0)).sum)).sum
  + (if lowerStr query <:+: lowerStr product.catText then 15 else 0)
  + (match listMin ((splitWS (lowerStr product.name)).map
        (fun w => levRec (lowerStr query) w)) with
     | some d => if d ≤ 2 then (3 - d) * 5 else 0
     | none => 0)

theorem innerPairFold (qw : List Char) (nws : List (List Char)) : ∀ (i : Nat),
    nws.foldl (fun s2 nWord =>
      if nWord = qw then s2 + 20
      else if qw <+: nWord then s2 + 10
      else s2) i
    = i + (nws.map (fun nw =>
        if nw = qw then 20 else if qw <+: nw then 10 else 0)).sum := by
  induction nws with
  | nil => intro i; simp
  | cons nw nws ih2 =>
    intro i
    rw [List.foldl_cons, ih2, List.map_cons, List.sum_cons]
    by_cases h1 : nw = qw
    · simp only [if_pos h1]
      omega
    · by_cases h2 : qw <+: nw
      · simp only [if_neg h1, if_pos h2]
        omega
      · simp only [if_neg h1, if_neg h2]
        omega

theorem wordPairFold (qws nws : List (List Char)) : ∀ (init : Nat),
    qws.foldl (fun s qWord => nws.foldl (fun s2 nWord =>
      if nWord = qWord then s2 + 20
      else if qWord <+: nWord then s2 + 10
      else s2) s) init
    = init + (qws.map (fun qw => (nws.map (fun nw =>
        if nw = qw then 20 else if qw <+: nw then 10 else 0)).sum)).sum := by
  induction qws with
  | nil => intro init; simp
  | cons qw qws ih =>
    intro init
    rw [List.foldl_cons, ih, List.map_cons, List.sum_cons]
    rw [innerPairFold qw nws init]
    omega

/-- C1: `calculateScore(product, query)` is a deterministic, pure
function into `Nat` (hence a non-negative integer) equal to the additive
sum of exactly the six contributions the claim lists: +100 exact name
match, +50 name-starts-with, +30 name-contains, the per word-pair +20/+10
bonuses, +15 category-contains, and the `(3 - d) * 5` fuzzy bonus for the
minimum token Levenshtein distance `d` when `d ≤ 2`. -/
theorem C1_calculateScore_spec (product : Product) (query : List Char) :
    calculateScore product query = specScore product query := by
  simp only [calculateScore, specScore]
  rw [wordPairFold]
  rw [show (fun w => levenshteinDistance (lowerStr query) w)
      = (fun w => levRec (lowerStr query) w) from
    funext fun w => levenshteinDistance_eq (lowerStr query) w]
  omega

/-! The result comparator of `SearchEngine.search` and its order
properties. -/

/-- One search result of the source: the product spread together with
its transient `searchScore`. -/
structure Scored where
  product : Product
  searchScore : Nat
deriving DecidableEq

/-- The predicate "the comparator of `SearchEngine.search` returns a
non-positive number on `(a, b)`", i.e. the stable sort keeps `a` no later
than `b`: strictly higher score first; score ties decided by
`localeCompare` on the display names, modelled per the collation contract
of the specification's §4.5 (the host ICU table is not repository code)
as case-insensitive lexicographic order refined by code-point order. -/
def sortLe (a b : Scored) : Prop :=
  b.searchScore < a.searchScore ∨
    (a.searchScore = b.searchScore ∧
      (lowerStr a.product.name < lowerStr b.product.name ∨
        (lowerStr a.product.name = lowerStr b.product.name ∧
          a.product.name ≤ b.product.name)))

instance : DecidableRel sortLe := fun a b => by
  unfold sortLe
  infer_instance

instance sortLe_total : IsTotal Scored sortLe := by
  constructor
  intro a b
  unfold sortLe
  rcases lt_trichotomy a.searchScore b.searchScore with h | h | h
  · exact Or.inr (Or.inl h)
  · rcases lt_trichotomy (lowerStr a.product.name) (lowerStr b.product.name) with h2 | h2 | h2
    · exact Or.inl (Or.inr ⟨h, Or.inl h2⟩)
    · rcases le_total a.product.name b.product.name with h3 | h3
      · exact Or.inl (Or.inr ⟨h, Or.inr ⟨h2, h3⟩⟩)
      · exact Or.inr (Or.inr ⟨h.symm, Or.inr ⟨h2.symm, h3⟩⟩)
    · exact Or.inr (Or.inr ⟨h.symm, Or.inl h2⟩)
  · exact Or.inl (Or.inl h)

instance sortLe_trans : IsTrans Scored sortLe := by
  constructor
  intro a b c hab hbc
  unfold sortLe at hab hbc ⊢
  rcases hab with hab | ⟨habs, habn⟩
  · rcases hbc with hbc | ⟨hbcs, _⟩
    · exact Or.inl (lt_trans hbc hab)
    · exact Or.inl (by rw [← hbcs]; exact hab)
  · rcases hbc with hbc | ⟨hbcs, hbcn⟩
    · exact Or.inl (by rw [habs]; exact hbc)
    · refine Or.inr ⟨habs.trans hbcs, ?_⟩
      rcases habn with h1 | ⟨h1e, h1r⟩
      · rcases hbcn with h2 | ⟨h2e, _⟩
        · exact Or.inl (lt_trans h1 h2)
        · exact Or.inl (by rw [← h2e]; exact h1)
      · rcases hbcn with h2 | ⟨h2e, h2r⟩
        · exact Or.inl (by rw [h1e]; exact h2)
        · exact Or.inr ⟨h1e.trans h2e, le_trans h1r h2r⟩

/-! The search engine orchestrator: state, `buildIndex`, `search`. -/

/-- Engine state: product snapshot, trie, and inverted index (term → set
of product identifiers, both maps in key insertion order). -/
structure Engine where
  products : List Product
  trie : TrieNode
  searchIndex : List (List Char × List Nat)

/-- `SearchEngine.addToIndex(term, product)`: insert the identifier into
the set keyed by the term (idempotent; insertion order preserved). -/
def addToIndex (idx : List (List Char × List Nat)) (term : List Char) (pid : Nat) :
    List (List Char × List Nat) :=
  match idx with
  | [] => [(term, [pid])]
  | (t, ids) :: rest =>
    if t = term then (t, if pid ∈ ids then ids else ids ++ [pid]) :: rest
    else (t, ids) :: addToIndex rest term pid

/-- The body of the `products.forEach` loop of `SearchEngine.buildIndex`:
index the lowercased name words (trie and inverted index), the full name,
the category when truthy, and the stock-keeping code when truthy. -/
def indexProduct (e : Engine) (product : Product) : Engine :=
  let nameWords := splitWS (lowerStr product.name)
  let e1 := nameWords.foldl (fun acc w =>
    { acc with trie := Trie.insert acc.trie w product,
               searchIndex := addToIndex acc.searchIndex w product.id }) e
  let e2 := { e1 with trie := Trie.insert e1.trie product.name product }
  let e3 :=
    if product.catText ≠ [] then
      { e2 with trie := Trie.insert e2.trie product.catText product,
                searchIndex := addToIndex e2.searchIndex (lowerStr product.catText) product.id }
    else e2
  if product.skuText ≠ [] then
    { e3 with trie := Trie.insert e3.trie product.skuText product }
  else e3

/-- `SearchEngine.buildIndex(products)`: stores the snapshot, replaces
the trie with a fresh one and clears the inverted index, then indexes
every product.  The prior engine state is never read — which the unused
first argument records. -/
def buildIndex (_e : Engine) (products : List Product) : Engine :=
  products.foldl indexProduct
    { products := products, trie := TrieNode.empty, searchIndex := [] }

/-- One `results.set(product.id, product)` step: a JS `Map` keeps the
original position of an existing key (overwriting its value) and appends
a new key. -/
def jsMapSet (m : List (Nat × Product)) (k : Nat) (v : Product) : List (Nat × Product) :=
  match m with
  | [] => [(k, v)]
  | (k0, v0) :: rest => if k0 = k then (k, v) :: rest else (k0, v0) :: jsMapSet rest k v

/-- `results.has(k)`. -/
def hasKey (m : List (Nat × Product)) (k : Nat) : Bool :=
  m.any (fun kv => kv.1 == k)

/-- The fuzzy-or-partial admission test of the augmentation pass of
`SearchEngine.search`: some lowercased name token within the Levenshtein
threshold `max(1, floor(query length / 3))` of the lowercased query, or
the lowercased name or category contains the lowercased query. -/
def fuzzyOrPartial (queryLower : List Char) (product : Product) : Bool :=
  ((splitWS (lowerStr product.name)).any (fun w =>
      levenshteinDistance queryLower w ≤ max 1 (queryLower.length / 3))) ||
    decide (queryLower <:+: lowerStr product.name) ||
    decide (queryLower <:+: lowerStr product.catText)

/-- Step 1 of `SearchEngine.search`: the deduplicated Trie candidates. -/
def trieCandMap (e : Engine) (tq : List Char) : List (Nat × Product) :=
  (Trie.search e.trie tq).foldl (fun m p => jsMapSet m p.id p) []

/-- Steps 1-2 of `SearchEngine.search`: Trie candidates, then — only when
they number strictly fewer than `limit` — the augmentation pass over the
whole product snapshot. -/
def searchCandidates (e : Engine) (tq : List Char) (limit : Int) : List (Nat × Product) :=
  let m0 := trieCandMap e tq
  if (m0.length : Int) < limit then
    e.products.foldl (fun m p =>
      if hasKey m p.id then m
      else if fuzzyOrPartial (lowerStr tq) p then jsMapSet m p.id p
      else m) m0
  else m0

/-- `SearchEngine.search(query, limit = 10)` of the source: empty-trimmed
queries short-circuit to `[]`; otherwise candidates are collected,
scored, stable-sorted by the comparator and cut by `slice(0, limit)`. -/
def search (e : Engine) (query : List Char) (limit : Int := 10) : List Scored :=
  if trimWS query = [] then []
  else
    let trimmedQuery := trimWS query
    let scored := (searchCandidates e trimmedQuery limit).map
      (fun kv => Scored.mk kv.2 (calculateScore kv.2 trimmedQuery))
    jsSlice (List.insertionSort sortLe scored) limit

/-! Tokenization lemmas towards claim C8. -/

theorem splitWS_cons_ws_nil (c : Char) (hc : isWS c) : splitWS [c] = [[], []] := by
  conv_lhs => rw [splitWS]
  simp [hc]

theorem splitWS_cons_ws_ws (c d : Char) (cs : List Char) (hc : isWS c) (hd : isWS d) :
    splitWS (c :: d :: cs) = splitWS (d :: cs) := by
  conv_lhs => rw [splitWS]
  simp [hc, hd]

theorem splitWS_cons_ws_not (c d : Char) (cs : List Char) (hc : isWS c) (hd : ¬ isWS d) :
    splitWS (c :: d :: cs) = [] :: splitWS (d :: cs) := by
  conv_lhs => rw [splitWS]
  simp [hc, hd]

theorem splitWS_cons_not (c : Char) (cs : List Char) (hc : ¬ isWS c) (t : List Char)
    (ts : List (List Char)) (hsp : splitWS cs = t :: ts) :
    splitWS (c :: cs) = (c :: t) :: ts := by
  conv_lhs => rw [splitWS.eq_def]
  simp [hc, hsp]

theorem splitWS_ne_nil : ∀ (s : List Char), splitWS s ≠ [] := by
  intro s
  induction s with
  | nil => simp [splitWS]
  | cons c cs ih =>
    by_cases hc : isWS c
    · cases cs with
      | nil => simp [splitWS_cons_ws_nil c hc]
      | cons d cs' =>
        by_cases hd : isWS d
        · rw [splitWS_cons_ws_ws c d cs' hc hd]
          exact ih
        · simp [splitWS_cons_ws_not c d cs' hc hd]
    · cases hsp : splitWS cs with
      | nil => exact absurd hsp ih
      | cons t ts => simp [splitWS_cons_not c cs hc t ts hsp]

theorem splitWS_head_ws : ∀ (cs : List Char) (d : Char), isWS d →
    ∃ ts, splitWS (d :: cs) = [] :: ts := by
  intro cs
  induction cs with
  | nil =>
    intro d hd
    exact ⟨[[]], splitWS_cons_ws_nil d hd⟩
  | cons e cs' ih =>
    intro d hd
    by_cases he : isWS e
    · obtain ⟨ts, hts⟩ := ih e he
      exact ⟨ts, by rw [splitWS_cons_ws_ws d e cs' hd he]; exact hts⟩
    · exact ⟨splitWS (e :: cs'), splitWS_cons_ws_not d e cs' hd he⟩

theorem splitWS_head_not (d : Char) (cs : List Char) (hd : ¬ isWS d) :
    ∃ t ts, splitWS (d :: cs) = (d :: t) :: ts := by
  cases hsp : splitWS cs with
  | nil => exact absurd hsp (splitWS_ne_nil cs)
  | cons t ts => exact ⟨t, ts, splitWS_cons_not d cs hd t ts hsp⟩

theorem wsRuns_cons_ws (c : Char) (cs : List Char) (hc : isWS c) :
    wsRuns (c :: cs) = wsRuns cs := by
  rw [wsRuns]
  simp [hc]

theorem wsRuns_cons_not_nil (c : Char) (hc : ¬ isWS c) : wsRuns [c] = [[c]] := by
  rw [wsRuns]
  simp [hc, runsCons]

theorem wsRuns_cons_not_ws (c d : Char) (cs : List Char) (hc : ¬ isWS c) (hd : isWS d) :
    wsRuns (c :: d :: cs) = [c] :: wsRuns (d :: cs) := by
  rw [wsRuns]
  cases hr : wsRuns (d :: cs) with
  | nil => simp [hc, hd, hr, runsCons]
  | cons t ts => simp [hc, hd, hr, runsCons]

theorem wsRuns_cons_not_not (c d : Char) (cs : List Char) (hc : ¬ isWS c) (hd : ¬ isWS d)
    (t : List Char) (ts : List (List Char)) (hr : wsRuns (d :: cs) = t :: ts) :
    wsRuns (c :: d :: cs) = (c :: t) :: ts := by
  rw [wsRuns]
  simp [hc, hd, hr, runsCons]

theorem splitWS_filter : ∀ (s : List Char),
    (splitWS s).filter (fun t => !t.isEmpty) = wsRuns s := by
  intro s
  induction s with
  | nil => simp [splitWS, wsRuns]
  | cons c cs ih =>
    by_cases hc : isWS c
    · rw [wsRuns_cons_ws c cs hc]
      cases cs with
      | nil => simp [splitWS_cons_ws_nil c hc, wsRuns]
      | cons d cs' =>
        by_cases hd : isWS d
        · rw [splitWS_cons_ws_ws c d cs' hc hd]
          exact ih
        · rw [splitWS_cons_ws_not c d cs' hc hd]
          simpa using ih
    · cases cs with
      | nil =>
        rw [show splitWS [c] = [[c]] from splitWS_cons_not c [] hc [] [] rfl,
          wsRuns_cons_not_nil c hc]
        simp
      | cons d cs' =>
        by_cases hd : isWS d
        · obtain ⟨ts, hts⟩ := splitWS_head_ws cs' d hd
          rw [splitWS_cons_not c (d :: cs') hc [] ts hts]
          rw [hts] at ih
          have hfil : List.filter (fun t => !t.isEmpty) (([] : List Char) :: ts)
              = List.filter (fun t => !t.isEmpty) ts := by simp
          rw [hfil] at ih
          rw [wsRuns_cons_not_ws c d cs' hc hd, ← ih]
          simp
        · obtain ⟨t0, ts0, hts⟩ := splitWS_head_not d cs' hd
          rw [splitWS_cons_not c (d :: cs') hc (d :: t0) ts0 hts]
          rw [hts] at ih
          have hfil : List.filter (fun t => !t.isEmpty) ((d :: t0) :: ts0)
              = (d :: t0) :: List.filter (fun t => !t.isEmpty) ts0 := by simp
          rw [hfil] at ih
          rw [wsRuns_cons_not_not c d cs' hc hd (d :: t0)
            (List.filter (fun t => !t.isEmpty) ts0) ih.symm]
          simp

/-- C8 (amended): tokenization is lowercasing followed by the JS regex
split on whitespace runs; its non-empty tokens are exactly the maximal
runs of non-whitespace characters of the lowercased string, in order.
Boundary whitespace additionally contributes an empty token, and the
empty input yields the one-element sequence holding the empty token —
not the empty sequence. -/
theorem C8_tokenization (s : List Char) :
    (splitWS (lowerStr s)).filter (fun t => !t.isEmpty) = wsRuns (lowerStr s) ∧
    splitWS (lowerStr ([] : List Char)) = [[]] ∧
    splitWS (lowerStr s) ≠ [] :=
  ⟨splitWS_filter (lowerStr s), rfl, splitWS_ne_nil (lowerStr s)⟩

/-- C8 counterexample: the claimed "empty input yields an empty token
sequence" and "exactly the maximal runs" both fail on the code — the
empty input tokenizes to the singleton of one empty token, and a leading
space produces a leading empty token. -/
theorem C8_counterexample :
    splitWS (lowerStr []) = [[]] ∧
    splitWS (lowerStr []) ≠ [] ∧
    splitWS (lowerStr (str " a")) = [[], str "a"] ∧
    splitWS (lowerStr (str " a")) ≠ wsRuns (lowerStr (str " a")) :=
  ⟨rfl, by decide, by decide, by decide⟩

theorem jsSlice_nonneg {α : Type} (l : List α) (stop : Int) (h : 0 ≤ stop) :
    jsSlice l stop = l.take stop.toNat := by
  unfold jsSlice
  rw [if_neg (by omega)]

/-- C10: the limit parameter defaults to 10, so `search(q)` is exactly
`search(q, 10)` and returns at most 10 results. -/
theorem C10_default_limit (e : Engine) (q : List Char) :
    search e q = search e q 10 ∧ (search e q).length ≤ 10 := by
  refine ⟨rfl, ?_⟩
  show (search e q 10).length ≤ 10
  simp only [search]
  split
  · simp
  · rw [jsSlice_nonneg _ 10 (by omega)]
    simp only [List.length_take]
    omega

/-- C7: `buildIndex` reads none of the prior engine state — the source
replaces the snapshot, the trie and the inverted index wholesale — so
building twice in a row from the same list yields the identical engine
state and identical `search` results for every query and limit. -/
theorem C7_buildIndex_idempotent (e : Engine) (P : List Product)
    (q : List Char) (n : Int) :
    buildIndex (buildIndex e P) P = buildIndex e P ∧
    search (buildIndex (buildIndex e P) P) q n = search (buildIndex e P) q n :=
  ⟨rfl, rfl⟩

/-- C6 (amended): `search(q, 0)` returns the empty sequence for every
engine and query, and no exception path exists (`search` is total); but a
negative limit is NOT clamped to zero: for a non-empty trimmed query,
`slice(0, limit)` drops `|limit|` elements from the end of the scored,
sorted candidate sequence, so the result has `max(0, candidates + limit)`
elements and can be non-empty.  (A non-finite limit is a floating-point
artifact outside this integer model.) -/
theorem C6_limit_handling :
    (∀ (e : Engine) (q : List Char), search e q 0 = []) ∧
    (∀ (e : Engine) (q : List Char) (n : Int), n < 0 → trimWS q ≠ [] →
      (search e q n).length
        = (((searchCandidates e (trimWS q) n).length : Int) + n).toNat) := by
  constructor
  · intro e q
    simp only [search]
    split
    · rfl
    · rw [jsSlice_nonneg _ 0 le_rfl]
      simp
  · intro e q n hn hq
    simp only [search]
    rw [if_neg hq]
    unfold jsSlice
    rw [if_pos hn]
    simp only [List.length_take]
    have hlen : (List.insertionSort sortLe ((searchCandidates e (trimWS q) n).map
        (fun kv => Scored.mk kv.2 (calculateScore kv.2 (trimWS q))))).length
        = (searchCandidates e (trimWS q) n).length := by
      rw [(List.perm_insertionSort sortLe _).length_eq, List.length_map]
    rw [hlen]
    omega

/-- A two-product engine whose display names both match the prefix
`"a"`. -/
def engNeg : Engine :=
  buildIndex (Engine.mk [] TrieNode.empty [])
    [Product.mk 1 (str "ab") none none, Product.mk 2 (str "ac") none none]

/-- C6 counterexample: with two candidates and limit `-1`, `search`
returns a non-empty sequence — the claimed clamp of negative limits to an
empty result does not happen in the code. -/
theorem C6_counterexample : search engNeg (str "a") (-1) ≠ [] := by decide

/-- Witness for C6: the negative-limit equation applied at the concrete
two-product engine with limit `-1`. -/
theorem C6_witness :
    (-1 : Int) < 0 ∧ trimWS (str "a") ≠ [] ∧
      (search engNeg (str "a") (-1)).length
        = (((searchCandidates engNeg (trimWS (str "a")) (-1)).length : Int) + (-1)).toNat :=
  ⟨by decide, by decide, C6_limit_handling.2 engNeg (str "a") (-1) (by decide) (by decide)⟩

/-- C2: for every indexed catalog, non-empty trimmed query and limit
`n ≥ 0`, the returned sequence is the scored candidate set, stable-sorted
(descending score, ties in ascending case-insensitive lexicographic
order of display name), then truncated to at most `n` elements, each
element carrying its computed score alongside the product reference. -/
theorem C2_search_sorted (e : Engine) (q : List Char) (n : Int)
    (hq : trimWS q ≠ []) (hn : 0 ≤ n) :
    search e q n = (List.insertionSort sortLe
        ((searchCandidates e (trimWS q) n).map
          (fun kv => Scored.mk kv.2 (calculateScore kv.2 (trimWS q))))).take n.toNat ∧
    List.Perm (List.insertionSort sortLe
        ((searchCandidates e (trimWS q) n).map
          (fun kv => Scored.mk kv.2 (calculateScore kv.2 (trimWS q)))))
      ((searchCandidates e (trimWS q) n).map
        (fun kv => Scored.mk kv.2 (calculateScore kv.2 (trimWS q)))) ∧
    List.Pairwise (fun a b => b.searchScore < a.searchScore ∨
        (a.searchScore = b.searchScore ∧
          lowerStr a.product.name ≤ lowerStr b.product.name)) (search e q n) ∧
    (search e q n).length ≤ n.toNat ∧
    (∀ x ∈ search e q n, x.searchScore = calculateScore x.product (trimWS q)) := by
  have heq : search e q n = (List.insertionSort sortLe
      ((searchCandidates e (trimWS q) n).map
        (fun kv => Scored.mk kv.2 (calculateScore kv.2 (trimWS q))))).take n.toNat := by
    simp only [search]
    rw [if_neg hq, jsSlice_nonneg _ n hn]
  refine ⟨heq, List.perm_insertionSort _ _, ?_, ?_, ?_⟩
  · rw [heq]
    have hsorted : List.Sorted sortLe (List.insertionSort sortLe
        ((searchCandidates e (trimWS q) n).map
          (fun kv => Scored.mk kv.2 (calculateScore kv.2 (trimWS q))))) :=
      List.sorted_insertionSort sortLe _
    have hp := hsorted.sublist (List.take_sublist n.toNat _)
    refine hp.imp ?_
    intro a b hab
    rcases hab with h | ⟨hs, hname⟩
    · exact Or.inl h
    · refine Or.inr ⟨hs, ?_⟩
      rcases hname with h2 | ⟨h2, _⟩
      · exact le_of_lt h2
      · exact le_of_eq h2
  · rw [heq]
    simp only [List.length_take]
    omega
  · intro x hx
    rw [heq] at hx
    have hx2 : x ∈ List.insertionSort sortLe
        ((searchCandidates e (trimWS q) n).map
          (fun kv => Scored.mk kv.2 (calculateScore kv.2 (trimWS q)))) :=
      (List.take_sublist n.toNat _).mem hx
    have hx3 := (List.perm_insertionSort sortLe _).mem_iff.mp hx2
    obtain ⟨kv, _, rfl⟩ := List.mem_map.mp hx3
    rfl

/-- Witness for C2: the theorem applied at the concrete two-product
engine, the query `"a"` and limit 10. -/
theorem C2_witness :
    trimWS (str "a") ≠ [] ∧ (0 : Int) ≤ 10 ∧
    (search engNeg (str "a") 10 = (List.insertionSort sortLe
        ((searchCandidates engNeg (trimWS (str "a")) 10).map
          (fun kv => Scored.mk kv.2 (calculateScore kv.2 (trimWS (str "a")))))).take
            ((10 : Int).toNat) ∧
      List.Perm (List.insertionSort sortLe
          ((searchCandidates engNeg (trimWS (str "a")) 10).map
            (fun kv => Scored.mk kv.2 (calculateScore kv.2 (trimWS (str "a"))))))
        ((searchCandidates engNeg (trimWS (str "a")) 10).map
          (fun kv => Scored.mk kv.2 (calculateScore kv.2 (trimWS (str "a"))))) ∧
      List.Pairwise (fun a b => b.searchScore < a.searchScore ∨
          (a.searchScore = b.searchScore ∧
            lowerStr a.product.name ≤ lowerStr b.product.name))
        (search engNeg (str "a") 10) ∧
      (search engNeg (str "a") 10).length ≤ (10 : Int).toNat ∧
      (∀ x ∈ search engNeg (str "a") 10,
        x.searchScore = calculateScore x.product (trimWS (str "a")))) :=
  ⟨by decide, by decide, C2_search_sorted engNeg (str "a") 10 (by decide) (by decide)⟩

/-! Candidate-set lemmas towards claim C5. -/

theorem jsMapSet_not_hasKey (m : List (Nat × Product)) (k : Nat) (v : Product)
    (h : hasKey m k = false) : jsMapSet m k v = m ++ [(k, v)] := by
  induction m with
  | nil => rfl
  | cons kv rest ih =>
    obtain ⟨k0, v0⟩ := kv
    simp only [hasKey, List.any_cons, Bool.or_eq_false_iff, beq_eq_false_iff_ne,
      ne_eq] at h
    obtain ⟨h1, h2⟩ := h
    rw [jsMapSet, if_neg h1]
    rw [ih h2]
    rfl

theorem hasKey_append_single (m : List (Nat × Product)) (k k' : Nat) (v : Product) :
    hasKey (m ++ [(k, v)]) k' = (hasKey m k' || (k == k')) := by
  simp [hasKey, List.any_append]

theorem augFold (cond : Product → Bool) : ∀ (ps : List Product) (m : List (Nat × Product)),
    ps.Pairwise (fun p1 p2 => p1.id ≠ p2.id) →
    ps.foldl (fun m p =>
        if hasKey m p.id then m
        else if cond p then jsMapSet m p.id p
        else m) m
      = m ++ (ps.filter (fun p => !hasKey m p.id && cond p)).map (fun p => (p.id, p)) := by
  intro ps
  induction ps with
  | nil => intro m _; simp
  | cons p ps ih =>
    intro m hpw
    rw [List.pairwise_cons] at hpw
    obtain ⟨hp, hpw'⟩ := hpw
    rw [List.foldl_cons, List.filter_cons]
    cases h1 : hasKey m p.id with
    | true =>
      rw [if_pos rfl, ih m hpw', if_neg (by simp : ¬((!true && cond p) = true))]
    | false =>
      cases h2 : cond p with
      | false =>
        have e1 : (if false = true then m
            else if false = true then jsMapSet m p.id p else m) = m := by simp
        rw [e1, ih m hpw', if_neg (by simp : ¬((!false && false) = true))]
      | true =>
        have e1 : (if false = true then m
            else if true = true then jsMapSet m p.id p else m) = jsMapSet m p.id p := by simp
        rw [e1, jsMapSet_not_hasKey m p.id p h1, ih (m ++ [(p.id, p)]) hpw']
        rw [if_pos (by simp : (!false && true) = true)]
        have hcongr : ps.filter (fun x => !hasKey (m ++ [(p.id, p)]) x.id && cond x)
            = ps.filter (fun x => !hasKey m x.id && cond x) := by
          apply List.filter_congr
          intro x hx
          rw [hasKey_append_single]
          have hne : (p.id == x.id) = false := by
            simp only [beq_eq_false_iff_ne, ne_eq]
            exact hp x hx
          rw [hne]
          simp
        rw [hcongr]
        simp [List.append_assoc]

theorem fuzzyOrPartial_eq_spec (lq : List Char) (p : Product) :
    fuzzyOrPartial lq p =
      (((splitWS (lowerStr p.name)).any
          (fun w => levRec lq w ≤ max 1 (lq.length / 3))) ||
        decide (lq <:+: lowerStr p.name) || decide (lq <:+: lowerStr p.catText)) := by
  unfold fuzzyOrPartial
  simp only [levenshteinDistance_eq]

/-- C5: for every non-empty trimmed query and a product snapshot with
pairwise-distinct identifiers: when the deduplicated Trie candidates
number strictly below the limit, the candidate set is the Trie candidates
followed by exactly those snapshot products, in order, that are not
already candidates (by identifier) and satisfy (a) some whitespace-token
of the lowercased name is within Levenshtein distance
`max(1, ⌊query length / 3⌋)` of the lowercased query, or (b) the
lowercased name or category contains the lowercased query; when the Trie
candidates already reach the limit, no augmentation occurs. -/
theorem C5_augmentation (e : Engine) (tq : List Char) (limit : Int)
    (htq : tq ≠ [])
    (hids : e.products.Pairwise (fun p1 p2 => p1.id ≠ p2.id)) :
    ((((trieCandMap e tq).length : Int) < limit →
      (searchCandidates e tq limit).map Prod.snd =
        (trieCandMap e tq).map Prod.snd ++
          e.products.filter (fun p =>
            !hasKey (trieCandMap e tq) p.id &&
              (((splitWS (lowerStr p.name)).any
                  (fun w => levRec (lowerStr tq) w ≤ max 1 ((lowerStr tq).length / 3))) ||
                decide ((lowerStr tq) <:+: lowerStr p.name) ||
                decide ((lowerStr tq) <:+: lowerStr p.catText)))) ∧
     (¬ (((trieCandMap e tq).length : Int) < limit) →
      searchCandidates e tq limit = trieCandMap e tq)) := by
  constructor
  · intro hlt
    simp only [searchCandidates]
    rw [if_pos hlt]
    rw [augFold (fuzzyOrPartial (lowerStr tq)) e.products (trieCandMap e tq) hids]
    rw [List.map_append, List.map_map]
    have hid : (Prod.snd ∘ fun p : Product => (p.id, p)) = fun p : Product => p := rfl
    rw [hid, List.map_id']
    have hcond : (fun p : Product => !hasKey (trieCandMap e tq) p.id
          && fuzzyOrPartial (lowerStr tq) p)
        = (fun p : Product => !hasKey (trieCandMap e tq) p.id &&
            (((splitWS (lowerStr p.name)).any
                (fun w => levRec (lowerStr tq) w ≤ max 1 ((lowerStr tq).length / 3))) ||
              decide ((lowerStr tq) <:+: lowerStr p.name) ||
              decide ((lowerStr tq) <:+: lowerStr p.catText))) := by
      funext p
      rw [fuzzyOrPartial_eq_spec]
    rw [hcond]
  · intro hge
    simp only [searchCandidates]
    rw [if_neg hge]

/-- A one-product engine whose Trie candidates for the typo query
`"cofee"` are empty, so the augmentation pass runs. -/
def engC5 : Engine :=
  buildIndex (Engine.mk [] TrieNode.empty [])
    [Product.mk 1 (str "Coffee Maker") none none]

/-- Witness for C5: the theorem applied at the concrete one-product
engine and the typo query `"cofee"` with limit 10. -/
theorem C5_witness :
    (str "cofee" ≠ []) ∧
    (engC5.products.Pairwise (fun p1 p2 => p1.id ≠ p2.id)) ∧
    ((((trieCandMap engC5 (str "cofee")).length : Int) < 10 →
      (searchCandidates engC5 (str "cofee") 10).map Prod.snd =
        (trieCandMap engC5 (str "cofee")).map Prod.snd ++
          engC5.products.filter (fun p =>
            !hasKey (trieCandMap engC5 (str "cofee")) p.id &&
              (((splitWS (lowerStr p.name)).any
                  (fun w => levRec (lowerStr (str "cofee")) w
                    ≤ max 1 ((lowerStr (str "cofee")).length / 3))) ||
                decide ((lowerStr (str "cofee")) <:+: lowerStr p.name) ||
                decide ((lowerStr (str "cofee")) <:+: lowerStr p.catText)))) ∧
     (¬ (((trieCandMap engC5 (str "cofee")).length : Int) < 10) →
      searchCandidates engC5 (str "cofee") 10 = trieCandMap engC5 (str "cofee"))) :=
  ⟨by decide, by decide, C5_augmentation engC5 (str "cofee") 10 (by decide) (by decide)⟩

/-! Claim C9: the exception surface of `buildIndex` and `search`. -/

/-- A raw catalog record as `buildIndex` receives it: the display name
may be missing (JS `undefined`) — the one field whose absence makes the
source throw (`product.name.toLowerCase()` on `undefined`).  A missing
identifier never throws: it only flows through `===` comparisons and Map
keys, which `undefined` survives, so `id : Nat` models it adequately. -/
structure RawProduct where
  id : Nat
  name : Option (List Char)
  category : Option (List Char)
  sku : Option (List Char)
deriving DecidableEq

/-- The product record of a raw record whose name `nm` is present. -/
def RawProduct.strip (r : RawProduct) (nm : List Char) : Product :=
  Product.mk r.id nm r.category r.sku

/-- The stripped records of the raw list (records without a name are
dropped; when every name is present this is just the stripped list). -/
def stripAll (raws : List RawProduct) : List Product :=
  raws.filterMap (fun r => r.name.map r.strip)

/-- `SearchEngine.buildIndex` with the JS exception surface explicit:
the per-product loop body first reads `product.name` — a missing name
throws a TypeError, modelled as `Except.error ()`; otherwise the body is
the pure `indexProduct`. -/
def buildIndexChecked (raws : List RawProduct) : Except Unit Engine :=
  raws.foldlM (fun e r =>
    match r.name with
    | none => Except.error ()
    | some nm => Except.ok (indexProduct e (r.strip nm)))
    (Engine.mk (stripAll raws) TrieNode.empty [])

theorem checkedFold (raws : List RawProduct) : ∀ (e : Engine),
    ((∀ r ∈ raws, r.name.isSome) →
      raws.foldlM (fun e r =>
          match r.name with
          | none => Except.error ()
          | some nm => Except.ok (indexProduct e (r.strip nm))) e
        = Except.ok (raws.foldl (fun e r => indexProduct e (r.strip (r.name.getD []))) e)) ∧
    ((∃ r ∈ raws, r.name = none) →
      raws.foldlM (fun e r =>
          match r.name with
          | none => Except.error ()
          | some nm => Except.ok (indexProduct e (r.strip nm))) e
        = Except.error ()) := by
  induction raws with
  | nil =>
    intro e
    constructor
    · intro _; rfl
    · intro h; simp at h
  | cons r raws ih =>
    intro e
    constructor
    · intro hall
      have hr : r.name.isSome := hall r (by simp)
      obtain ⟨nm, hnm⟩ := Option.isSome_iff_exists.mp hr
      rw [List.foldlM_cons, List.foldl_cons, hnm]
      show List.foldlM _ (indexProduct e (r.strip nm)) raws
        = Except.ok (List.foldl _ (indexProduct e (r.strip ((some nm).getD []))) raws)
      rw [Option.getD_some]
      exact (ih (indexProduct e (r.strip nm))).1 (fun x hx => hall x (by simp [hx]))
    · intro hex
      rw [List.foldlM_cons]
      cases hnm : r.name with
      | none => rfl
      | some nm =>
        have htail : ∃ x ∈ raws, x.name = none := by
          rcases hex with ⟨x, hx, hxn⟩
          rcases List.mem_cons.mp hx with h | hx2
          · rw [h, hnm] at hxn
            cases hxn
          · exact ⟨x, hx2, hxn⟩
        show List.foldlM _ (indexProduct e (r.strip nm)) raws = Except.error ()
        exact (ih (indexProduct e (r.strip nm))).2 htail

theorem stripAll_of_all_some (raws : List RawProduct) (h : ∀ r ∈ raws, r.name.isSome) :
    stripAll raws = raws.map (fun r => r.strip (r.name.getD [])) := by
  induction raws with
  | nil => rfl
  | cons r raws ih =>
    have hr : r.name.isSome := h r (by simp)
    obtain ⟨nm, hnm⟩ := Option.isSome_iff_exists.mp hr
    simp only [stripAll, List.filterMap_cons, List.map_cons, hnm, Option.map_some',
      Option.getD_some]
    rw [show List.filterMap (fun r => Option.map r.strip r.name) raws = stripAll raws from rfl]
    rw [ih (fun x hx => h x (by simp [hx]))]

/-- C9 (amended): `buildIndex` is exception-free exactly when every
product record carries a display name — then it returns the pure model
engine, after which `search` is a total function whose worst case is the
empty result (an empty candidate set yields the empty sequence and no
error).  A record missing the display name is NOT guarded: `buildIndex`
throws a TypeError there (missing identifiers are tolerated). -/
theorem C9_exception_surface (raws : List RawProduct) :
    ((∀ r ∈ raws, r.name.isSome) →
      buildIndexChecked raws
        = Except.ok (buildIndex (Engine.mk [] TrieNode.empty []) (stripAll raws))) ∧
    ((∃ r ∈ raws, r.name = none) → buildIndexChecked raws = Except.error ()) ∧
    (∀ (e : Engine) (q : List Char) (n : Int),
      searchCandidates e (trimWS q) n = [] → search e q n = []) := by
  refine ⟨?_, ?_, ?_⟩
  · intro hall
    unfold buildIndexChecked buildIndex
    rw [(checkedFold raws _).1 hall]
    rw [stripAll_of_all_some raws hall, List.foldl_map]
  · intro hex
    unfold buildIndexChecked
    exact (checkedFold raws _).2 hex
  · intro e q n hcand
    simp only [search]
    split
    · rfl
    · rw [hcand]
      simp [jsSlice, List.insertionSort]

/-- C9 counterexample: a record missing the display name makes
`buildIndex` throw instead of being clamped or skipped. -/
theorem C9_counterexample :
    buildIndexChecked [RawProduct.mk 1 none none none] = Except.error () := rfl

/-- Witness for C9: a fully-named record builds without an exception and
yields the pure model engine. -/
theorem C9_witness :
    buildIndexChecked [RawProduct.mk 1 (some (str "ab")) none none]
      = Except.ok (buildIndex (Engine.mk [] TrieNode.empty [])
          (stripAll [RawProduct.mk 1 (some (str "ab")) none none])) :=
  (C9_exception_surface [RawProduct.mk 1 (some (str "ab")) none none]).1 (by decide)
